import Mathlib

/-!
Shallow embedding of `my_model_selectors.py` (HMM model-selection strategies
for an isolated-word ASL recognizer) and verification of its specification.

Modelling conventions:
* The HMM library (`hmmlearn`) is an external black box.  An `Oracle` packages
  its fallible primitives: `fitRaw` models `GaussianHMM(n_components=n,
  covariance_type="diag", n_iter=1000, random_state=14).fit(X, lengths)`
  (deterministic, the random seed is fixed, so it is a pure function of the
  state count and the training data, and it may raise), `score` models
  `model.score(X, lengths)` (may raise), and `logNat` models `np.log` applied
  to a length.  Log-likelihood scores are modelled as rationals.
* Python exceptions are modelled by the `Py` result type; `try/except` blocks
  become `match`es on `Py` values.
* Python dicts are modelled as association lists in insertion order (CPython
  dicts iterate in insertion order).  The corpus dictionaries
  `all_word_sequences` and `all_word_Xlengths` share their key set (the
  second is derived per label from the first), so they are modelled as one
  list of `CorpusEntry`.
* The DIC on-disk anti-likelihood cache (`np.load`/`np.save` of a dict keyed
  by the string `"{n}_{word}"`, which determines the pair `(n, word)`
  uniquely since `n`'s digits contain no underscore) is modelled as a
  function `ℕ → String → Option ℚ`: `none` models a missing key, whose
  lookup raises `KeyError` and is skipped by the inner `except`.
-/

namespace ASL

/-- Result of running a piece of Python code: it either raises some
exception or returns a value. -/
inductive Py (α : Type) where
  | raised : Py α
  | ok : α → Py α
deriving DecidableEq, Repr

/-- One observation frame: a feature vector. -/
abbrev ObsFrame := List ℚ

/-- One observation sequence: a list of frames. -/
abbrev ObsSeq := List ObsFrame

/-- A fitted `GaussianHMM`.  `nComponents` records the `n_components`
argument the model was constructed with; `payload` abstracts all remaining
learned parameters. -/
structure HMMModel where
  nComponents : ℕ
  payload : ℕ
deriving DecidableEq, Repr

/-- The external HMM library and numeric primitives (see module docstring). -/
structure Oracle where
  fitRaw : ℕ → List ObsFrame → List ℕ → Py HMMModel
  score : HMMModel → List ObsFrame → List ℕ → Py ℚ
  logNat : ℕ → ℚ

/-- One label of the corpus: its name, its list of observation sequences
(`all_word_sequences[label]`) and the derived concatenated representation
(`all_word_Xlengths[label] = (X, lengths)`). -/
structure CorpusEntry where
  label : String
  seqs : List ObsSeq
  X : List ObsFrame
  lengths : List ℕ
deriving DecidableEq, Repr

/-- The state set up by `ModelSelector.__init__`: `self.words` / `self.hwords`
(the corpus), `self.this_word`, `self.sequences = words[this_word]`,
`(self.X, self.lengths) = hwords[this_word]`, and the configuration numbers.
`random_state=14` is fixed and folded into `Oracle.fitRaw`. -/
structure Selector where
  corpus : List CorpusEntry
  this_word : String
  sequences : List ObsSeq
  X : List ObsFrame
  lengths : List ℕ
  n_constant : ℕ
  min_n : ℕ
  max_n : ℕ
  verbose : Bool
deriving DecidableEq, Repr

/-- `ModelSelector.__init__`: looks the target word up in the corpus
(raising `KeyError`, i.e. `none`, if absent) and stores its data. -/
def mkSelector (corpus : List CorpusEntry) (this_word : String)
    (n_constant min_n max_n : ℕ) (verbose : Bool) : Option Selector :=
  match corpus.find? (fun e => e.label == this_word) with
  | none => none
  | some e =>
    some ⟨corpus, this_word, e.seqs, e.X, e.lengths, n_constant, min_n, max_n, verbose⟩

/-- `range(self.min_n_components, self.max_n_components + 1, 1)`. -/
def candRange (cfg : Selector) : List ℕ :=
  List.range' cfg.min_n (cfg.max_n + 1 - cfg.min_n)

/-- `ModelSelector.base_model(num_states)` together with its diagnostic
output: fits an HMM with `num_states` states on the selector's own data
`(self.X, self.lengths)`; on success returns the model (printing a message
when verbose), on any exception returns `None` (printing a message when
verbose).  The second component collects the printed lines. -/
def baseModelLog (o : Oracle) (cfg : Selector) (n : ℕ) :
    Option HMMModel × List String :=
  match o.fitRaw n cfg.X cfg.lengths with
  | Py.ok m =>
    (some m,
     if cfg.verbose then
       ["model created for " ++ cfg.this_word ++ " with " ++ toString n ++ " states"]
     else [])
  | Py.raised =>
    (none,
     if cfg.verbose then
       ["failure on " ++ cfg.this_word ++ " with " ++ toString n ++ " states"]
     else [])

/-- The value returned by `ModelSelector.base_model(num_states)`. -/
def baseModel (o : Oracle) (cfg : Selector) (n : ℕ) : Option HMMModel :=
  (baseModelLog o cfg n).1

/-- Replace the `verbose` flag of a selector. -/
def setVerbose (cfg : Selector) (b : Bool) : Selector :=
  ⟨cfg.corpus, cfg.this_word, cfg.sequences, cfg.X, cfg.lengths,
   cfg.n_constant, cfg.min_n, cfg.max_n, b⟩

/-- CPython `min(d, key=d.get)` main loop over the remaining items: the
current best is replaced only when a later value is strictly smaller, so the
first minimal item wins. -/
def pyMinGo : ℕ × ℚ → List (ℕ × ℚ) → ℕ × ℚ
  | best, [] => best
  | best, p :: rest => if p.2 < best.2 then pyMinGo p rest else pyMinGo best rest

/-- `min(d, key=d.get)` over an insertion-ordered dict `d`. -/
def pyArgMin : List (ℕ × ℚ) → Option ℕ
  | [] => none
  | p :: rest => some (pyMinGo p rest).1

/-- CPython `max(d, key=d.get)` main loop: the current best is replaced only
when a later value is strictly greater, so the first maximal item wins. -/
def pyMaxGo : ℕ × ℚ → List (ℕ × ℚ) → ℕ × ℚ
  | best, [] => best
  | best, p :: rest => if best.2 < p.2 then pyMaxGo p rest else pyMaxGo best rest

/-- `max(d, key=d.get)` over an insertion-ordered dict `d`. -/
def pyArgMax : List (ℕ × ℚ) → Option ℕ
  | [] => none
  | p :: rest => some (pyMaxGo p rest).1

/-- `SelectorConstant.select()`: `return self.base_model(self.n_constant)`. -/
def constantSelect (o : Oracle) (cfg : Selector) : Option HMMModel :=
  baseModel o cfg cfg.n_constant

/-- The free-parameter count of `SelectorBIC`:
`p = np.power(n, 2) + 2 * d * n - 1` (the square `np.power(n, 2)` is written
`n · n` to keep the term kernel-computable). -/
def bicP (n d : ℕ) : ℚ :=
  (n : ℚ) * (n : ℚ) + 2 * d * n - 1

/-- `d = len(self.X[0])`, the feature dimensionality (only meaningful when
`self.X` is non-empty; the code raises `IndexError` otherwise). -/
def featDim (cfg : Selector) : ℕ :=
  (cfg.X.headD []).length

/-- One iteration of the `SelectorBIC.select` loop body's `try` block:
`-2 * self.base_model(n).score(self.X, self.lengths) + p * np.log(len(self.X))`.
Returns `none` when `base_model` returned `None` (so `.score` raises
`AttributeError`) or scoring raised. -/
def bicEntry (o : Oracle) (cfg : Selector) (n : ℕ) : Option ℚ :=
  match baseModel o cfg n with
  | none => none
  | some m =>
    match o.score m cfg.X cfg.lengths with
    | Py.raised => none
    | Py.ok L => some (-2 * L + bicP n (featDim cfg) * o.logNat cfg.X.length)

/-- The `like_prop` dict built by `SelectorBIC.select` (insertion order of
the ascending candidate loop). -/
def bicTable (o : Oracle) (cfg : Selector) : List (ℕ × ℚ) :=
  (candRange cfg).filterMap (fun n => (bicEntry o cfg n).map (fun s => (n, s)))

/-- `SelectorBIC.select()`.  The statement `d = len(self.X[0])` runs before
the `try` block, so when `self.X` is empty and the candidate loop runs at
least once the whole call raises `IndexError`; otherwise the minimal-score
candidate of `like_prop` is refitted and returned, or `None` when the dict
is empty. -/
def bicSelect (o : Oracle) (cfg : Selector) : Py (Option HMMModel) :=
  if cfg.X = [] ∧ candRange cfg ≠ [] then Py.raised
  else
    Py.ok (match pyArgMin (bicTable o cfg) with
      | none => none
      | some k => baseModel o cfg k)

/-- One entry of the freshly built DIC anti-likelihood cache:
`self.base_model(n).score(X_word, lengths_word)`, with `0` stored when the
fit or the scoring fails (`except: ... = 0`). -/
def dicCacheEntry (o : Oracle) (cfg : Selector) (n : ℕ) (e : CorpusEntry) : ℚ :=
  match baseModel o cfg n with
  | none => 0
  | some m =>
    match o.score m e.X e.lengths with
    | Py.raised => 0
    | Py.ok L => L

/-- The cache built by `SelectorDIC.select` when no cache file exists: for
every candidate `n` and every corpus label `word` the key `"{n}_{word}"`
maps to `dicCacheEntry`. -/
def builtCache (o : Oracle) (cfg : Selector) : ℕ → String → Option ℚ :=
  fun n w =>
    if n ∈ candRange cfg then
      match cfg.corpus.find? (fun e => e.label == w) with
      | some e => some (dicCacheEntry o cfg n e)
      | none => none
    else none

/-- The fallible part of one `SelectorDIC.select` candidate iteration:
`like_prop = self.base_model(n).score(self.X, self.lengths)` inside the
outer `try`.  (The remaining statements of that `try` block cannot raise:
the `hwords` lookups succeed because both dicts share the corpus key set,
and cache lookups are guarded by the inner `try`.) -/
def dicTryOwn (o : Oracle) (cfg : Selector) (n : ℕ) : Option ℚ :=
  match baseModel o cfg n with
  | none => none
  | some m =>
    match o.score m cfg.X cfg.lengths with
    | Py.raised => none
    | Py.ok L => some L

/-- The `avg_like_prop` accumulation loop of `SelectorDIC.select`:
`for word in self.words: if word is not self.this_word: avg += cache[key]`,
where a missing cache key raises `KeyError` and is skipped (adding nothing). -/
def dicAnti (cfg : Selector) (cache : ℕ → String → Option ℚ) (n : ℕ) : ℚ :=
  cfg.corpus.foldl
    (fun acc e =>
      if e.label ≠ cfg.this_word then acc + (cache n e.label).getD 0 else acc)
    0

/-- The `dic_scores` dict of `SelectorDIC.select`:
`dic_scores[n] = like_prop - ((1 / (len(self.words) - 1)) * avg_like_prop)`,
entered only when the candidate's `try` block succeeded. -/
def dicScores (o : Oracle) (cfg : Selector) (cache : ℕ → String → Option ℚ) :
    List (ℕ × ℚ) :=
  (candRange cfg).filterMap (fun n =>
    match dicTryOwn o cfg n with
    | none => none
    | some own =>
      some (n, own - 1 / ((cfg.corpus.length : ℚ) - 1) * dicAnti cfg cache n))

/-- `SelectorDIC.select()` (given the cache in effect, loaded or freshly
built).  The division `1 / (len(self.words) - 1)` runs outside every `try`,
so with a single-label corpus the first candidate whose own fit and score
succeed raises `ZeroDivisionError`; otherwise the maximal-score candidate of
`dic_scores` is refitted and returned, or `None` when the dict is empty. -/
def dicSelect (o : Oracle) (cfg : Selector) (cache : ℕ → String → Option ℚ) :
    Py (Option HMMModel) :=
  if cfg.corpus.length = 1 ∧ ∃ n ∈ candRange cfg, (dicTryOwn o cfg n).isSome = true then
    Py.raised
  else
    Py.ok (match pyArgMax (dicScores o cfg cache) with
      | none => none
      | some k => baseModel o cfg k)

/-- Modelled from the spec: `combine_sequences` from the repository's
`asl_utils` module (not under `src/`); per §3 and §6 of the spec it builds,
from the sequences at the given fold indices, the stacked feature matrix and
the matching list of sequence lengths. -/
def combine_sequences (idx : List ℕ) (seqs : List ObsSeq) :
    List ObsFrame × List ℕ :=
  ((idx.map (fun i => seqs.getD i [])).flatten,
   idx.map (fun i => (seqs.getD i []).length))

/-- sklearn `KFold(2).split` on a list of `n` sequences: raises (`none`)
when `n < 2`; otherwise yields two `(train_indices, test_indices)` pairs
with consecutive test blocks, the first of size `⌈n/2⌉`.  The validation
error is raised when the generator is first advanced, before any fold is
yielded. -/
def kfold2 (n : ℕ) : Option (List (List ℕ × List ℕ)) :=
  if n < 2 then none
  else
    let h := (n + 1) / 2
    some [(((List.range n).drop h), ((List.range n).take h)),
          (((List.range n).take h), ((List.range n).drop h))]

/-- One fold iteration of `SelectorCV.select`: build the held-out data
`combine_sequences(cv_test_idx, self.sequences)` and score
`self.base_model(num_components)` (fitted on the selector's full data) on
it; `none` when the fit returned `None` or the scoring raised (the inner
`except: continue`). -/
def cvFoldScore (o : Oracle) (cfg : Selector) (n : ℕ) (test_idx : List ℕ) :
    Option ℚ :=
  match baseModel o cfg n with
  | none => none
  | some m =>
    match o.score m (combine_sequences test_idx cfg.sequences).1
        (combine_sequences test_idx cfg.sequences).2 with
    | Py.raised => none
    | Py.ok L => some L

/-- The `except` branch of the outer `try` of `SelectorCV.select`:
`self.base_model(3).score(self.X, self.lengths)`, `none` on failure. -/
def cvFallback (o : Oracle) (cfg : Selector) : Option ℚ :=
  match baseModel o cfg 3 with
  | none => none
  | some m =>
    match o.score m cfg.X cfg.lengths with
    | Py.raised => none
    | Py.ok L => some L

/-- The `lp_n_components` list collected for one candidate: the successful
fold scores, or — when the splitter raises (fewer than 2 sequences), which
happens before any fold score was appended — the single fallback score. -/
def cvFoldScores (o : Oracle) (cfg : Selector) (n : ℕ) : List ℚ :=
  match kfold2 cfg.sequences.length with
  | some folds => folds.filterMap (fun tt => cvFoldScore o cfg n tt.2)
  | none =>
    match cvFallback o cfg with
    | none => []
    | some L => [L]

/-- The `lp` dict of `SelectorCV.select`:
`lp[n] = np.sum(lp_n_components) / len(lp_n_components)` whenever the list
is non-empty. -/
def cvTable (o : Oracle) (cfg : Selector) : List (ℕ × ℚ) :=
  (candRange cfg).filterMap (fun n =>
    match cvFoldScores o cfg n with
    | [] => none
    | s => some (n, s.sum / (s.length : ℚ)))

/-- `SelectorCV.select()`: the maximal-score candidate of `lp` is refitted
and returned, or `None` when the dict is empty.  Every fallible operation of
the body sits inside a `try`, so the call never raises. -/
def cvSelect (o : Oracle) (cfg : Selector) : Option HMMModel :=
  match pyArgMax (cvTable o cfg) with
  | none => none
  | some k => baseModel o cfg k

/-- A two-sequence corpus label `"w"`: sequences `[[1]]` and `[[2]]`, each
one frame of one feature, with the derived stacked matrix and lengths. -/
def entW : CorpusEntry := ⟨"w", [[[1]], [[2]]], [[1], [2]], [1, 1]⟩

/-- A one-sequence corpus label `"v"`. -/
def entV : CorpusEntry := ⟨"v", [[[3]]], [[3]], [1]⟩

/-- A corpus label `"e"` with no sequences at all (empty stacked matrix). -/
def entE : CorpusEntry := ⟨"e", [], [], []⟩

/-- A concrete HMM library whose fit always succeeds and whose fitted model
records, in its payload, the number of frames of the data it was trained on;
scoring returns that payload.  This makes the training data of a scored
model observable. -/
def oracleLen : Oracle :=
  ⟨fun n X _l => Py.ok ⟨n, X.length⟩,
   fun m _X _l => Py.ok ((m.payload : ℚ)),
   fun _ => 0⟩

/-- A concrete HMM library whose fit and score always fail. -/
def oracleRaise : Oracle :=
  ⟨fun _n _X _l => Py.raised,
   fun _m _X _l => Py.raised,
   fun _ => 0⟩

/-- Like `oracleLen`, but fitting succeeds only on the stacked data of
`entW`; used to observe that no selector ever fits on any other data. -/
def oracleTarget : Oracle :=
  ⟨fun n X _l => if X = entW.X then Py.ok ⟨n, X.length⟩ else Py.raised,
   fun m _X _l => Py.ok ((m.payload : ℚ)),
   fun _ => 0⟩

/-- A selector over the two-label corpus `[entW, entV]`, targeting `"w"`,
with candidate range `[2, 3]`. -/
def cfgW : Selector :=
  ⟨[entW, entV], "w", entW.seqs, entW.X, entW.lengths, 3, 2, 3, false⟩

/-- A selector over the single-label corpus `[entV]`, targeting `"v"` (one
sequence only), with candidate range `[2, 3]`. -/
def cfgV : Selector :=
  ⟨[entV], "v", entV.seqs, entV.X, entV.lengths, 3, 2, 3, false⟩

/-- A selector targeting the empty-data label `"e"`. -/
def cfgE : Selector :=
  ⟨[entE], "e", entE.seqs, entE.X, entE.lengths, 3, 2, 3, false⟩

/-- A concrete loaded DIC anti-likelihood cache holding only entries for
label `"v"`. -/
def cacheW : ℕ → String → Option ℚ :=
  fun _n w => if w = "v" then some 10 else none

theorem mem_candRange {cfg : Selector} {n : ℕ} :
    n ∈ candRange cfg ↔ cfg.min_n ≤ n ∧ n < cfg.max_n + 1 - cfg.min_n + cfg.min_n := by
  unfold candRange
  rw [List.mem_range'_1, Nat.add_comm cfg.min_n]

theorem candRange_pairwise (cfg : Selector) : (candRange cfg).Pairwise (· < ·) := by
  unfold candRange
  cases h : cfg.max_n + 1 - cfg.min_n with
  | zero => simp
  | succ k =>
    rw [List.range'_succ, ← List.chain_iff_pairwise]
    exact List.chain_lt_range' cfg.min_n k (by norm_num)

theorem keys_filterMap_sublist (l : List ℕ) (f : ℕ → Option (ℕ × ℚ))
    (hf : ∀ n p, f n = some p → p.1 = n) :
    ((l.filterMap f).map Prod.fst).Sublist l := by
  induction l with
  | nil => simp
  | cons a t ih =>
    cases h : f a with
    | none => simpa [List.filterMap_cons, h] using (ih).cons a
    | some p =>
      have : p.1 = a := hf a p h
      simpa [List.filterMap_cons, h, this] using (ih).cons₂ a

theorem pyMinGo_mem (b : ℕ × ℚ) (l : List (ℕ × ℚ)) :
    pyMinGo b l = b ∨ pyMinGo b l ∈ l := by
  induction l generalizing b with
  | nil => left; rfl
  | cons p t ih =>
    by_cases h : p.2 < b.2 <;> simp only [pyMinGo, h, if_true, if_false]
    · rcases ih p with h1 | h1
      · right; simp [h1]
      · right; simp [h1]
    · rcases ih b with h1 | h1
      · left; exact h1
      · right; simp [h1]

theorem pyMinGo_le (b : ℕ × ℚ) (l : List (ℕ × ℚ)) :
    ∀ q ∈ b :: l, (pyMinGo b l).2 ≤ q.2 := by
  induction l generalizing b with
  | nil => intro q hq; simp at hq; simp [pyMinGo, hq]
  | cons p t ih =>
    intro q hq
    simp only [List.mem_cons] at hq
    by_cases h : p.2 < b.2 <;> simp only [pyMinGo, h, if_true, if_false]
    · rcases hq with rfl | rfl | hq
      · exact le_of_lt (lt_of_le_of_lt (ih p p (by simp)) h)
      · exact ih q q (by simp)
      · exact ih p q (by simp [hq])
    · rcases hq with rfl | rfl | hq
      · exact ih q q (by simp)
      · exact le_trans (ih b b (by simp)) (le_of_not_lt h)
      · exact ih b q (by simp [hq])

theorem pyMinGo_stay (b : ℕ × ℚ) (l : List (ℕ × ℚ))
    (h : ∀ q ∈ l, b.2 ≤ q.2) : pyMinGo b l = b := by
  induction l generalizing b with
  | nil => rfl
  | cons p t ih =>
    have hp : ¬ p.2 < b.2 := not_lt.mpr (h p (by simp))
    simp only [pyMinGo, hp, if_false]
    exact ih b (fun q hq => h q (by simp [hq]))

theorem pyMinGo_first (b : ℕ × ℚ) (l : List (ℕ × ℚ))
    (hpair : ((b :: l).map Prod.fst).Pairwise (· < ·)) :
    ∀ q ∈ b :: l, q.2 ≤ (pyMinGo b l).2 → (pyMinGo b l).1 ≤ q.1 := by
  induction l generalizing b with
  | nil =>
    intro q hq _
    simp at hq
    simp [pyMinGo, hq]
  | cons p t ih =>
    intro q hq hmin
    simp only [List.mem_cons] at hq
    by_cases h : p.2 < b.2
    · simp only [pyMinGo, h, if_true] at hmin ⊢
      have hpair' : ((p :: t).map Prod.fst).Pairwise (· < ·) := by
        apply hpair.sublist
        apply List.Sublist.map
        exact List.sublist_cons_self b (p :: t)
      rcases hq with rfl | rfl | hq
      · exfalso
        have h1 : (pyMinGo p t).2 ≤ p.2 := pyMinGo_le p t p (by simp)
        exact absurd (lt_of_lt_of_le h (le_trans hmin h1)) (lt_irrefl _)
      · exact ih q hpair' q (by simp) hmin
      · exact ih p hpair' q (by simp [hq]) hmin
    · simp only [pyMinGo, h, if_false] at hmin ⊢
      have hsub : ((b :: t).map Prod.fst).Pairwise (· < ·) := by
        apply hpair.sublist
        apply List.Sublist.map
        exact (List.sublist_cons_self p t).cons₂ b
      rcases hq with rfl | rfl | hq
      · exact ih q hsub q (by simp) hmin
      · have hble : b.2 ≤ q.2 := le_of_not_lt h
        have h2 : (pyMinGo b t).2 ≤ b.2 := pyMinGo_le b t b (by simp)
        have heq : (pyMinGo b t).2 = b.2 :=
          le_antisymm h2 (le_trans hble hmin)
        have hball : ∀ r ∈ t, b.2 ≤ r.2 := by
          intro r hr
          rw [← heq]
          exact pyMinGo_le b t r (by simp [hr])
        rw [pyMinGo_stay b t hball]
        have hbq : b.1 < q.1 := by
          simp only [List.map_cons, List.pairwise_cons] at hpair
          exact hpair.1 q.1 (by simp)
        exact le_of_lt hbq
      · exact ih b hsub q (by simp [hq]) hmin

theorem pyMaxGo_mem (b : ℕ × ℚ) (l : List (ℕ × ℚ)) :
    pyMaxGo b l = b ∨ pyMaxGo b l ∈ l := by
  induction l generalizing b with
  | nil => left; rfl
  | cons p t ih =>
    by_cases h : b.2 < p.2 <;> simp only [pyMaxGo, h, if_true, if_false]
    · rcases ih p with h1 | h1
      · right; simp [h1]
      · right; simp [h1]
    · rcases ih b with h1 | h1
      · left; exact h1
      · right; simp [h1]

theorem pyMaxGo_ge (b : ℕ × ℚ) (l : List (ℕ × ℚ)) :
    ∀ q ∈ b :: l, q.2 ≤ (pyMaxGo b l).2 := by
  induction l generalizing b with
  | nil => intro q hq; simp at hq; simp [pyMaxGo, hq]
  | cons p t ih =>
    intro q hq
    simp only [List.mem_cons] at hq
    by_cases h : b.2 < p.2 <;> simp only [pyMaxGo, h, if_true, if_false]
    · rcases hq with rfl | rfl | hq
      · exact le_of_lt (lt_of_lt_of_le h (ih p p (by simp)))
      · exact ih q q (by simp)
      · exact ih p q (by simp [hq])
    · rcases hq with rfl | rfl | hq
      · exact ih q q (by simp)
      · exact le_trans (le_of_not_lt h) (ih b b (by simp))
      · exact ih b q (by simp [hq])

theorem pyMaxGo_stay (b : ℕ × ℚ) (l : List (ℕ × ℚ))
    (h : ∀ q ∈ l, q.2 ≤ b.2) : pyMaxGo b l = b := by
  induction l generalizing b with
  | nil => rfl
  | cons p t ih =>
    have hp : ¬ b.2 < p.2 := not_lt.mpr (h p (by simp))
    simp only [pyMaxGo, hp, if_false]
    exact ih b (fun q hq => h q (by simp [hq]))

theorem pyMaxGo_first (b : ℕ × ℚ) (l : List (ℕ × ℚ))
    (hpair : ((b :: l).map Prod.fst).Pairwise (· < ·)) :
    ∀ q ∈ b :: l, (pyMaxGo b l).2 ≤ q.2 → (pyMaxGo b l).1 ≤ q.1 := by
  induction l generalizing b with
  | nil =>
    intro q hq _
    simp at hq
    simp [pyMaxGo, hq]
  | cons p t ih =>
    intro q hq hmax
    simp only [List.mem_cons] at hq
    by_cases h : b.2 < p.2
    · simp only [pyMaxGo, h, if_true] at hmax ⊢
      have hpair' : ((p :: t).map Prod.fst).Pairwise (· < ·) := by
        apply hpair.sublist
        apply List.Sublist.map
        exact List.sublist_cons_self b (p :: t)
      rcases hq with rfl | rfl | hq
      · exfalso
        have h1 : p.2 ≤ (pyMaxGo p t).2 := pyMaxGo_ge p t p (by simp)
        exact absurd (lt_of_lt_of_le h (le_trans h1 hmax)) (lt_irrefl _)
      · exact ih q hpair' q (by simp) hmax
      · exact ih p hpair' q (by simp [hq]) hmax
    · simp only [pyMaxGo, h, if_false] at hmax ⊢
      have hsub : ((b :: t).map Prod.fst).Pairwise (· < ·) := by
        apply hpair.sublist
        apply List.Sublist.map
        exact (List.sublist_cons_self p t).cons₂ b
      rcases hq with rfl | rfl | hq
      · exact ih q hsub q (by simp) hmax
      · have hble : q.2 ≤ b.2 := le_of_not_lt h
        have h2 : b.2 ≤ (pyMaxGo b t).2 := pyMaxGo_ge b t b (by simp)
        have heq : (pyMaxGo b t).2 = b.2 :=
          le_antisymm (le_trans hmax hble) h2
        have hball : ∀ r ∈ t, r.2 ≤ b.2 := by
          intro r hr
          rw [← heq]
          exact pyMaxGo_ge b t r (by simp [hr])
        rw [pyMaxGo_stay b t hball]
        have hbq : b.1 < q.1 := by
          simp only [List.map_cons, List.pairwise_cons] at hpair
          exact hpair.1 q.1 (by simp)
        exact le_of_lt hbq
      · exact ih b hsub q (by simp [hq]) hmax

theorem pyArgMin_spec {l : List (ℕ × ℚ)} {k : ℕ} (h : pyArgMin l = some k) :
    ∃ v, (k, v) ∈ l ∧ (∀ p ∈ l, v ≤ p.2) ∧
      ((l.map Prod.fst).Pairwise (· < ·) → ∀ p ∈ l, p.2 ≤ v → k ≤ p.1) := by
  match l with
  | [] => simp [pyArgMin] at h
  | b :: t =>
    simp only [pyArgMin, Option.some.injEq] at h
    subst h
    refine ⟨(pyMinGo b t).2, ?_, ?_, ?_⟩
    · have hm : pyMinGo b t ∈ b :: t := by
        rcases pyMinGo_mem b t with h1 | h1
        · rw [h1]; simp
        · simp [h1]
      simpa using hm
    · exact fun p hp => pyMinGo_le b t p hp
    · exact fun hpair p hp hple => pyMinGo_first b t hpair p hp hple

theorem pyArgMax_spec {l : List (ℕ × ℚ)} {k : ℕ} (h : pyArgMax l = some k) :
    ∃ v, (k, v) ∈ l ∧ (∀ p ∈ l, p.2 ≤ v) ∧
      ((l.map Prod.fst).Pairwise (· < ·) → ∀ p ∈ l, v ≤ p.2 → k ≤ p.1) := by
  match l with
  | [] => simp [pyArgMax] at h
  | b :: t =>
    simp only [pyArgMax, Option.some.injEq] at h
    subst h
    refine ⟨(pyMaxGo b t).2, ?_, ?_, ?_⟩
    · have hm : pyMaxGo b t ∈ b :: t := by
        rcases pyMaxGo_mem b t with h1 | h1
        · rw [h1]; simp
        · simp [h1]
      simpa using hm
    · exact fun p hp => pyMaxGo_ge b t p hp
    · exact fun hpair p hp hple => pyMaxGo_first b t hpair p hp hple

theorem foldl_guard_sum (P : CorpusEntry → Prop) [DecidablePred P]
    (f : CorpusEntry → ℚ) (l : List CorpusEntry) (a : ℚ) :
    l.foldl (fun acc e => if P e then acc + f e else acc) a
      = a + ((l.filter (fun e => P e)).map f).sum := by
  induction l generalizing a with
  | nil => simp
  | cons e t ih =>
    simp only [List.foldl_cons, List.filter_cons]
    by_cases h : P e
    · rw [if_pos h, ih]
      simp [h, add_assoc]
    · rw [if_neg h, ih]
      simp [h]

theorem dicAnti_eq (cfg : Selector) (cache : ℕ → String → Option ℚ) (n : ℕ) :
    dicAnti cfg cache n
      = ((cfg.corpus.filter (fun e => e.label ≠ cfg.this_word)).map
          (fun e => (cache n e.label).getD 0)).sum := by
  unfold dicAnti
  simpa using foldl_guard_sum (fun e => e.label ≠ cfg.this_word)
    (fun e => (cache n e.label).getD 0) cfg.corpus 0

/-- C9: for every state count, `base_model` returns `None` (rather than
raising or propagating any exception) on any failure during HMM construction
or fitting, returns the fitted model otherwise, and its optional verbose
logging has no effect on the returned value. -/
theorem C9_base_model (o : Oracle) (cfg : Selector) (n : ℕ) :
    (∀ m, baseModel o cfg n = some m ↔ o.fitRaw n cfg.X cfg.lengths = Py.ok m)
    ∧ (baseModel o cfg n = none ↔ o.fitRaw n cfg.X cfg.lengths = Py.raised)
    ∧ (∀ b b',
        (baseModelLog o (setVerbose cfg b) n).1 = (baseModelLog o (setVerbose cfg b') n).1) := by
  refine ⟨?_, ?_, ?_⟩
  · intro m
    cases hf : o.fitRaw n cfg.X cfg.lengths <;>
      simp [baseModel, baseModelLog, hf]
  · cases hf : o.fitRaw n cfg.X cfg.lengths <;>
      simp [baseModel, baseModelLog, hf]
  · intro b b'
    cases hf : o.fitRaw n cfg.X cfg.lengths <;>
      simp [baseModelLog, setVerbose, hf]

/-- C10: `SelectorConstant.select` fits and returns a model with exactly
`n_constant` states (or `None` if that single fit fails); the selected state
count is independent of the corpus content, and no candidate other than
`n_constant` is ever consulted (replacing the fitter at every other state
count leaves the result unchanged). -/
theorem C10_constant (o : Oracle) (cfg : Selector)
    (hstates : ∀ n X l m, o.fitRaw n X l = Py.ok m → m.nComponents = n) :
    (∀ m, constantSelect o cfg = some m → m.nComponents = cfg.n_constant)
    ∧ (∀ o' : Oracle,
        (∀ X l, o.fitRaw cfg.n_constant X l = o'.fitRaw cfg.n_constant X l) →
        constantSelect o cfg = constantSelect o' cfg)
    ∧ (∀ cfg' : Selector, cfg'.n_constant = cfg.n_constant →
        ∀ m m', constantSelect o cfg = some m → constantSelect o cfg' = some m' →
          m.nComponents = m'.nComponents) := by
  have hbase : ∀ (cfg2 : Selector) m, constantSelect o cfg2 = some m →
      m.nComponents = cfg2.n_constant := by
    intro cfg2 m hm
    unfold constantSelect baseModel baseModelLog at hm
    cases hf : o.fitRaw cfg2.n_constant cfg2.X cfg2.lengths with
    | raised => rw [hf] at hm; simp at hm
    | ok m0 =>
      rw [hf] at hm
      simp at hm
      rw [← hm]
      exact hstates _ _ _ _ hf
  refine ⟨hbase cfg, ?_, ?_⟩
  · intro o' hagree
    unfold constantSelect baseModel baseModelLog
    rw [hagree cfg.X cfg.lengths]
  · intro cfg' hnc m m' hm hm'
    rw [hbase cfg m hm, hbase cfg' m' hm', hnc]

/-- C10 witness: with a well-behaved concrete library, the model selected by
the constant policy over `cfgW` has `n_constant = 3` components. -/
theorem C10_constant_witness :
    (⟨3, 2⟩ : HMMModel).nComponents = cfgW.n_constant :=
  (C10_constant oracleLen cfgW
    (by intro n X l m h; cases h; rfl)).1 ⟨3, 2⟩ (by decide)

/-- C8: for each ScoreTable-building policy the returned model is produced
by a fresh re-invocation of `base_model` on the winning candidate's state
count, and if this refit fails the policy returns `None`. -/
theorem C8_refit (o : Oracle) (cfg : Selector) (cache : ℕ → String → Option ℚ)
    (k : ℕ) :
    (cfg.X ≠ [] → pyArgMin (bicTable o cfg) = some k →
      bicSelect o cfg = Py.ok (baseModel o cfg k)
      ∧ (baseModel o cfg k = none → bicSelect o cfg = Py.ok none))
    ∧ (cfg.corpus.length ≠ 1 → pyArgMax (dicScores o cfg cache) = some k →
      dicSelect o cfg cache = Py.ok (baseModel o cfg k)
      ∧ (baseModel o cfg k = none → dicSelect o cfg cache = Py.ok none))
    ∧ (pyArgMax (cvTable o cfg) = some k →
      cvSelect o cfg = baseModel o cfg k
      ∧ (baseModel o cfg k = none → cvSelect o cfg = none)) := by
  refine ⟨?_, ?_, ?_⟩
  · intro hX hk
    have hsel : bicSelect o cfg = Py.ok (baseModel o cfg k) := by
      unfold bicSelect
      rw [if_neg (fun hc => hX hc.1), hk]
    exact ⟨hsel, fun hnone => by rw [hsel, hnone]⟩
  · intro hM hk
    have hsel : dicSelect o cfg cache = Py.ok (baseModel o cfg k) := by
      unfold dicSelect
      rw [if_neg (fun hc => hM hc.1), hk]
    exact ⟨hsel, fun hnone => by rw [hsel, hnone]⟩
  · intro hk
    have hsel : cvSelect o cfg = baseModel o cfg k := by
      unfold cvSelect
      rw [hk]
    exact ⟨hsel, fun hnone => by rw [hsel, hnone]⟩

theorem bicTable_oracleLen_cfgW :
    bicTable oracleLen cfgW = [(2, -4), (3, -4)] := by
  have h2 : bicEntry oracleLen cfgW 2 = some (-4) := by
    simp only [bicEntry, baseModel, baseModelLog, oracleLen, cfgW, entW, bicP, featDim]
    norm_num
  have h3 : bicEntry oracleLen cfgW 3 = some (-4) := by
    simp only [bicEntry, baseModel, baseModelLog, oracleLen, cfgW, entW, bicP, featDim]
    norm_num
  have hr : candRange cfgW = [2, 3] := rfl
  unfold bicTable
  rw [hr]
  simp [h2, h3]

/-- C8 witness: over `cfgW` the BIC policy returns exactly the refit of the
winning candidate 2. -/
theorem C8_refit_witness :
    bicSelect oracleLen cfgW = Py.ok (baseModel oracleLen cfgW 2) :=
  ((C8_refit oracleLen cfgW cacheW 2).1 (by decide)
    (by rw [bicTable_oracleLen_cfgW]; decide)).1

/-- C3: for every candidate whose fit and score succeed, the BIC ScoreTable
entry equals `-2·logL + p·ln N` with `p = n² + 2·d·n − 1`, `d` the feature
dimensionality `len(X[0])` and `N = len(X)` the total frame count; failed
candidates are absent from the table; and the candidate with minimal BIC
score is the one selected (by refit). -/
theorem C3_bic_formula (o : Oracle) (cfg : Selector) (hX : cfg.X ≠ []) :
    (∀ n ∈ candRange cfg, ∀ m L, baseModel o cfg n = some m →
        o.score m cfg.X cfg.lengths = Py.ok L →
        (n, -2 * L + ((n : ℚ) ^ 2 + 2 * ((cfg.X.headD []).length : ℚ) * (n : ℚ) - 1)
            * o.logNat cfg.X.length) ∈ bicTable o cfg)
    ∧ (∀ n, bicEntry o cfg n = none → n ∉ (bicTable o cfg).map Prod.fst)
    ∧ (∀ k, pyArgMin (bicTable o cfg) = some k →
        bicSelect o cfg = Py.ok (baseModel o cfg k)
        ∧ ∃ v, (k, v) ∈ bicTable o cfg ∧ ∀ p ∈ bicTable o cfg, v ≤ p.2) := by
  refine ⟨?_, ?_, ?_⟩
  · intro n hn m L hm hL
    apply List.mem_filterMap.mpr
    refine ⟨n, hn, ?_⟩
    simp [bicEntry, hm, hL, bicP, featDim, pow_two]
  · intro n hnone hmem
    rcases List.mem_map.mp hmem with ⟨p, hp, hp1⟩
    rcases List.mem_filterMap.mp hp with ⟨a, _, hpa⟩
    rcases Option.map_eq_some'.mp hpa with ⟨s, hs, heq⟩
    rw [← heq] at hp1
    simp at hp1
    rw [hp1] at hs
    rw [hnone] at hs
    cases hs
  · intro k hk
    refine ⟨?_, ?_⟩
    · unfold bicSelect
      rw [if_neg (fun hc => hX hc.1), hk]
    · rcases pyArgMin_spec hk with ⟨v, hv, hmin, _⟩
      exact ⟨v, hv, hmin⟩

/-- C3 witness: over `cfgW` with the concrete library, candidate 2's fit
yields log-likelihood 2, and the BIC formula value appears in the table. -/
theorem C3_bic_witness :
    ((2 : ℕ),
      -2 * (2 : ℚ) + (((2 : ℕ) : ℚ) ^ 2 + 2 * ((cfgW.X.headD []).length : ℚ) * ((2 : ℕ) : ℚ) - 1)
        * oracleLen.logNat cfgW.X.length) ∈ bicTable oracleLen cfgW :=
  (C3_bic_formula oracleLen cfgW (by decide)).1 2 (by decide) ⟨2, 2⟩ 2 (by decide) (by decide)

/-- C2: for every candidate whose own-data fit and score succeed, the DIC
score equals the own log-likelihood minus `1/(M−1)` times the sum, over all
corpus labels other than `this_word`, of the cached anti-likelihood (missing
cache entries contributing 0, the denominator always the full `M−1`); and
the candidate maximizing this score is the one selected (by refit). -/
theorem C2_dic_formula (o : Oracle) (cfg : Selector)
    (cache : ℕ → String → Option ℚ) (hM : 2 ≤ cfg.corpus.length) :
    (∀ n ∈ candRange cfg, ∀ own, dicTryOwn o cfg n = some own →
      (n, own - 1 / ((cfg.corpus.length : ℚ) - 1)
        * ((cfg.corpus.filter (fun e => e.label ≠ cfg.this_word)).map
            (fun e => (cache n e.label).getD 0)).sum) ∈ dicScores o cfg cache)
    ∧ (∀ k, pyArgMax (dicScores o cfg cache) = some k →
        dicSelect o cfg cache = Py.ok (baseModel o cfg k)
        ∧ ∃ v, (k, v) ∈ dicScores o cfg cache ∧ ∀ p ∈ dicScores o cfg cache, p.2 ≤ v) := by
  have hM1 : cfg.corpus.length ≠ 1 := by omega
  refine ⟨?_, ?_⟩
  · intro n hn own hown
    apply List.mem_filterMap.mpr
    refine ⟨n, hn, ?_⟩
    rw [← dicAnti_eq]
    simp [hown]
  · intro k hk
    refine ⟨?_, ?_⟩
    · unfold dicSelect
      rw [if_neg (fun hc => hM1 hc.1), hk]
    · rcases pyArgMax_spec hk with ⟨v, hv, hmax, _⟩
      exact ⟨v, hv, hmax⟩

/-- C2 witness: over the two-label corpus `cfgW` with cache `cacheW`,
candidate 2's own score is 2 and the DIC formula value is in the table. -/
theorem C2_dic_witness :
    ((2 : ℕ), (2 : ℚ) - 1 / ((cfgW.corpus.length : ℚ) - 1)
      * ((cfgW.corpus.filter (fun e => e.label ≠ cfgW.this_word)).map
          (fun e => (cacheW 2 e.label).getD 0)).sum) ∈ dicScores oracleLen cfgW cacheW :=
  (C2_dic_formula oracleLen cfgW cacheW (by decide)).1 2 (by decide) 2 (by decide)

/-- C6: the three ScoreTables are built in ascending candidate order, and on
a table with ascending keys the `min`/`max` aggregation picks, among the
entries sharing the extremal score, the lowest candidate state count (the
first encountered); the selection functions are pure, hence identical across
repeated runs. -/
theorem C6_tiebreak (o : Oracle) (cfg : Selector)
    (cache : ℕ → String → Option ℚ) :
    ((bicTable o cfg).map Prod.fst).Pairwise (· < ·)
    ∧ ((dicScores o cfg cache).map Prod.fst).Pairwise (· < ·)
    ∧ ((cvTable o cfg).map Prod.fst).Pairwise (· < ·)
    ∧ (∀ t : List (ℕ × ℚ), (t.map Prod.fst).Pairwise (· < ·) →
        (∀ k, pyArgMin t = some k →
          ∃ v, (k, v) ∈ t ∧ (∀ p ∈ t, v ≤ p.2) ∧ ∀ p ∈ t, p.2 = v → k ≤ p.1)
        ∧ (∀ k, pyArgMax t = some k →
          ∃ v, (k, v) ∈ t ∧ (∀ p ∈ t, p.2 ≤ v) ∧ ∀ p ∈ t, p.2 = v → k ≤ p.1)) := by
  have hkeys : ∀ (f : ℕ → Option (ℕ × ℚ)), (∀ n p, f n = some p → p.1 = n) →
      (((candRange cfg).filterMap f).map Prod.fst).Pairwise (· < ·) :=
    fun f hf => (candRange_pairwise cfg).sublist (keys_filterMap_sublist _ f hf)
  refine ⟨?_, ?_, ?_, ?_⟩
  · unfold bicTable
    apply hkeys
    intro n p hp
    rcases Option.map_eq_some'.mp hp with ⟨s, _, heq⟩
    rw [← heq]
  · unfold dicScores
    apply hkeys
    intro n p hp
    cases h : dicTryOwn o cfg n with
    | none => rw [h] at hp; cases hp
    | some own =>
      rw [h] at hp
      simp only [Option.some.injEq] at hp
      rw [← hp]
  · unfold cvTable
    apply hkeys
    intro n p hp
    cases h : cvFoldScores o cfg n with
    | nil => rw [h] at hp; cases hp
    | cons a s =>
      rw [h] at hp
      simp only [Option.some.injEq] at hp
      rw [← hp]
  · intro t hpair
    refine ⟨?_, ?_⟩
    · intro k hk
      rcases pyArgMin_spec hk with ⟨v, hv, hmin, hfirst⟩
      exact ⟨v, hv, hmin, fun p hp hpv => hfirst hpair p hp (le_of_eq hpv)⟩
    · intro k hk
      rcases pyArgMax_spec hk with ⟨v, hv, hmax, hfirst⟩
      exact ⟨v, hv, hmax, fun p hp hpv => hfirst hpair p hp (le_of_eq hpv.symm)⟩

/-- C6 witness: on the concrete two-way tie `[(2, 5), (3, 5)]` the `min`
aggregation picks an entry whose key 2 is no greater than that of any other
tied entry. -/
theorem C6_tiebreak_witness :
    ∃ v, ((2 : ℕ), v) ∈ [((2 : ℕ), (5 : ℚ)), (3, 5)]
      ∧ (∀ p ∈ [((2 : ℕ), (5 : ℚ)), (3, 5)], v ≤ p.2)
      ∧ ∀ p ∈ [((2 : ℕ), (5 : ℚ)), (3, 5)], p.2 = v → 2 ≤ p.1 :=
  ((C6_tiebreak oracleLen cfgW cacheW).2.2.2 [(2, 5), (3, 5)] (by decide)).1
    2 (by decide)

/-- C7: every HMM fit performed anywhere in the module goes through
`base_model`, which trains on the selector's own target-label data
`(self.X, self.lengths)` only — also during CV fold evaluation and DIC
anti-likelihood cache construction.  Hence two libraries that agree on
fitting the target data (and on scoring and `np.log`), however much they
differ on fitting any other data, produce identical results everywhere. -/
theorem C7_fit_only_own_data (o₁ o₂ : Oracle) (cfg : Selector)
    (cache : ℕ → String → Option ℚ)
    (hscore : o₁.score = o₂.score) (hlog : o₁.logNat = o₂.logNat)
    (hfit : ∀ n, o₁.fitRaw n cfg.X cfg.lengths = o₂.fitRaw n cfg.X cfg.lengths) :
    (∀ n, baseModel o₁ cfg n = baseModel o₂ cfg n)
    ∧ bicSelect o₁ cfg = bicSelect o₂ cfg
    ∧ (∀ n w, builtCache o₁ cfg n w = builtCache o₂ cfg n w)
    ∧ dicSelect o₁ cfg cache = dicSelect o₂ cfg cache
    ∧ cvSelect o₁ cfg = cvSelect o₂ cfg
    ∧ constantSelect o₁ cfg = constantSelect o₂ cfg := by
  have hb : ∀ n, baseModel o₁ cfg n = baseModel o₂ cfg n := by
    intro n
    unfold baseModel baseModelLog
    rw [hfit n]
  have hb' : baseModel o₁ cfg = baseModel o₂ cfg := funext hb
  refine ⟨hb, ?_, ?_, ?_, ?_, ?_⟩
  · simp only [bicSelect, bicTable, bicEntry, hb', hscore, hlog]
  · intro n w
    simp only [builtCache, dicCacheEntry, hb', hscore]
  · simp only [dicSelect, dicScores, dicTryOwn, hb', hscore]
  · simp only [cvSelect, cvTable, cvFoldScores, cvFoldScore, cvFallback, hb', hscore]
  · simp only [constantSelect, hb']

/-- C7 witness: `oracleTarget` refuses to fit anything except `cfgW`'s own
stacked data, yet the CV selection it produces coincides with that of the
everywhere-succeeding `oracleLen`. -/
theorem C7_fit_only_own_data_witness :
    cvSelect oracleLen cfgW = cvSelect oracleTarget cfgW :=
  (C7_fit_only_own_data oracleLen oracleTarget cfgW cacheW rfl rfl
    (by intro n; simp [oracleLen, oracleTarget, cfgW])).2.2.2.2.1

theorem filterMap_pair_const (l : List ℕ) (s : ℚ) :
    l.filterMap (fun n => some (n, s)) = l.map (fun n => (n, s)) := by
  induction l with
  | nil => rfl
  | cons a t ih => simp [List.filterMap_cons, ih]

/-- C1, evaluated at the failing input: with the library `oracleLen`, whose
fitted models record the frame count of their training data, both CV folds
of `cfgW` score a model trained on all 2 frames of the full stacked data
`self.X`, although each training fold holds only 1 frame — the fold models
are `base_model(n)` fits on the label's full data, not fits on the
training-fold sequences (`cv_train_idx` is computed but never used). -/
theorem C1_cv_trains_on_full_data :
    kfold2 cfgW.sequences.length = some [([1], [0]), ([0], [1])]
    ∧ (combine_sequences [1] cfgW.sequences).1.length = 1
    ∧ (combine_sequences [0] cfgW.sequences).1.length = 1
    ∧ cfgW.X.length = 2
    ∧ cvFoldScore oracleLen cfgW 2 [0] = some ((cfgW.X.length : ℚ))
    ∧ cvFoldScore oracleLen cfgW 2 [1] = some ((cfgW.X.length : ℚ)) := by
  refine ⟨rfl, rfl, rfl, rfl, ?_, ?_⟩ <;> decide

/-- C4 counterexample: for the one-sequence label `cfgV` the splitter fails
and the fallback succeeds, yet the resulting ScoreTable holds one entry per
candidate — keys `[2, 3]` — not a single entry keyed by state count 3. -/
theorem C4_counterexample :
    cfgV.sequences.length = 1
    ∧ (cvTable oracleLen cfgV).map Prod.fst = [2, 3] := by
  refine ⟨rfl, ?_⟩
  decide

/-- C4 as amended: when the label has exactly 1 sequence the 2-fold splitter
fails and the 3-state fallback fit/score pass runs once per candidate; if it
succeeds the ScoreTable holds one entry for every candidate `n` of the
range, keyed by `n` and all carrying the 3-state score; if it fails the
table is empty. -/
theorem C4_cv_fallback (o : Oracle) (cfg : Selector)
    (h1 : cfg.sequences.length = 1) :
    cvTable o cfg
      = match cvFallback o cfg with
        | none => []
        | some s => (candRange cfg).map (fun n => (n, s)) := by
  have hk : kfold2 cfg.sequences.length = none := by
    rw [h1]
    rfl
  cases hfb : cvFallback o cfg with
  | none =>
    simp [cvTable, cvFoldScores, hk, hfb]
  | some L =>
    simp only [cvTable, cvFoldScores, hk, hfb]
    simp [div_one, filterMap_pair_const]

/-- C4 witness: the amended statement evaluated over `cfgV`. -/
theorem C4_cv_fallback_witness :
    cvTable oracleLen cfgV
      = match cvFallback oracleLen cfgV with
        | none => []
        | some s => (candRange cfgV).map (fun n => (n, s)) :=
  C4_cv_fallback oracleLen cfgV (by decide)

/-- C5 counterexample: `select()` can raise.  DIC on a single-label corpus
whose own fit succeeds raises `ZeroDivisionError` (the `1/(M−1)` runs
outside every `try`), and BIC on a label with an empty stacked matrix raises
`IndexError` (the `d = len(self.X[0])` runs outside the `try`). -/
theorem C5_counterexample :
    dicSelect oracleLen cfgV (fun _ _ => none) = Py.raised
    ∧ bicSelect oracleLen cfgE = Py.raised := by
  refine ⟨?_, ?_⟩ <;> decide

/-- C5 as amended: with an empty ScoreTable each policy returns `None`; CV
never raises; BIC cannot raise when the label's stacked matrix is
non-empty; DIC cannot raise when the corpus label count differs from 1. -/
theorem C5_no_raise (o : Oracle) (cfg : Selector)
    (cache : ℕ → String → Option ℚ) :
    (cvTable o cfg = [] → cvSelect o cfg = none)
    ∧ (cfg.X ≠ [] → ∃ r, bicSelect o cfg = Py.ok r)
    ∧ (cfg.X ≠ [] → bicTable o cfg = [] → bicSelect o cfg = Py.ok none)
    ∧ (cfg.corpus.length ≠ 1 → ∃ r, dicSelect o cfg cache = Py.ok r)
    ∧ (dicScores o cfg cache = [] → dicSelect o cfg cache = Py.ok none) := by
  refine ⟨?_, ?_, ?_, ?_, ?_⟩
  · intro h
    unfold cvSelect
    rw [h]
    rfl
  · intro hX
    unfold bicSelect
    rw [if_neg (fun hc => hX hc.1)]
    exact ⟨_, rfl⟩
  · intro hX h
    unfold bicSelect
    rw [if_neg (fun hc => hX hc.1), h]
    rfl
  · intro hM
    unfold dicSelect
    rw [if_neg (fun hc => hM hc.1)]
    exact ⟨_, rfl⟩
  · intro h
    have hnone : ∀ n ∈ candRange cfg, dicTryOwn o cfg n = none := by
      intro n hn
      have hfn := List.filterMap_eq_nil_iff.mp h n hn
      cases hd : dicTryOwn o cfg n with
      | none => rfl
      | some own => rw [hd] at hfn; cases hfn
    unfold dicSelect
    rw [if_neg (fun hc => ?_), h]
    · rfl
    · rcases hc.2 with ⟨n, hn, hs⟩
      rw [hnone n hn] at hs
      cases hs

/-- C5 witness: the amended statement at concrete inputs — an
always-failing library gives CV an empty table and a `None` result, and the
well-behaved library gives BIC and DIC non-raising runs over `cfgW`. -/
theorem C5_no_raise_witness :
    cvSelect oracleRaise cfgW = none
    ∧ (∃ r, bicSelect oracleLen cfgW = Py.ok r)
    ∧ (∃ r, dicSelect oracleLen cfgW cacheW = Py.ok r) :=
  ⟨(C5_no_raise oracleRaise cfgW cacheW).1 (by decide),
   (C5_no_raise oracleLen cfgW cacheW).2.1 (by decide),
   (C5_no_raise oracleLen cfgW cacheW).2.2.2.1 (by decide)⟩

end ASL
